import Mathlib

/-!
Verification of the cg-gnns explanation-and-separability engine.

The development shallowly embeds the numeric core of
`histocartography/interpretability/metric_analysis/metric.py` (class `Metric`),
the orchestrator `hactnet/explain/explain.py` (`explain_cell_graphs`) and the
evaluation-split selection of `cggnn/run.py` (`run`).

Conventions of the embedding:
* machine floats become exact rationals `ℚ`;
* numpy arrays become lists: a pooled matrix is a `List (List ℚ)` of rows,
  a per-class collection is a `List` of such matrices;
* `numpy.round(x, 4)` / python `round(x, 4)` become `round4`, built on
  round-half-to-even, the tie rule numpy and python use;
* the external `Distance` module (`from distance import Distance`) is not part
  of the repository sources, so the distance primitive is kept as an explicit
  function argument, exactly as `Metric.__init__` injects `self.dist`.
-/

namespace CgGnn

/-- Round-half-to-even on rationals, the tie-breaking rule of python's
`round` and `numpy.round`: take the floor, and move up only when the
fractional part exceeds `1/2`, or equals `1/2` with an odd floor. -/
def round_half_even (q : ℚ) : ℤ :=
  let f := ⌊q⌋
  let r := q - (f : ℚ)
  if r < 1/2 then f
  else if 1/2 < r then f + 1
  else if f % 2 = 0 then f else f + 1

/-- Rounding to four decimal places, `round(x, 4)` of the source. -/
def round4 (q : ℚ) : ℚ := (round_half_even (q * 10000) : ℚ) / 10000

/-- Minimum of a list of rationals, as `numpy.min` computes it on a non-empty
array (the empty case, which numpy rejects, defaults to `0`). -/
def list_min : List ℚ → ℚ
  | [] => 0
  | x :: xs => xs.foldl min x

/-- Maximum of a list of rationals, as `numpy.max` computes it on a non-empty
array (the empty case, which numpy rejects, defaults to `0`). -/
def list_max : List ℚ → ℚ
  | [] => 0
  | x :: xs => xs.foldl max x

/-- Embedding of `Metric.get_risk` (metric.py, lines 152-158).  The source
allocates `np.ones((n_tumors, n_tumors))` and overwrites every entry with
`abs(i - j)` only when the ordinal-risk flag is set; in the non-ordinal case
the matrix, its diagonal included, stays all ones.  The matrix of shape
`n × n` is represented by its entry function. -/
def get_risk (n : ℕ) (ordinal : Bool) (i j : ℕ) : ℚ :=
  if ordinal then |(i : ℚ) - (j : ℚ)| else 1

/-- Embedding of `Metric.get_distance` (metric.py, lines 139-149).  The matrix
starts at zero; for every pair `i < j` of positions of `input` the injected
distance function (`self.dist`, built in `Metric.__init__` from the external
`Distance` module) is evaluated once on `(input[i], input[j])` and written
symmetrically; finally the whole matrix goes through `np.round(·, 4)`.
Entries outside the populated square, and the diagonal, are the rounded
zeros of the initial matrix. -/
def get_distance (dist : List (List ℚ) → List (List ℚ) → ℚ)
    (input : List (List (List ℚ))) (i j : ℕ) : ℚ :=
  if i < input.length ∧ j < input.length ∧ i ≠ j then
    if i < j then round4 (dist (input.getD i []) (input.getD j []))
    else round4 (dist (input.getD j []) (input.getD i []))
  else 0

/-- The same pairwise-distance matrix before `np.round(·, 4)` is applied;
used to compare the code's rounded aggregation against the spec's
full-precision wording. -/
def get_distance_raw (dist : List (List ℚ) → List (List ℚ) → ℚ)
    (input : List (List (List ℚ))) (i j : ℕ) : ℚ :=
  if i < input.length ∧ j < input.length ∧ i ≠ j then
    if i < j then dist (input.getD i []) (input.getD j [])
    else dist (input.getD j []) (input.getD i [])
  else 0

/-- Embedding of the aggregation in `Metric.compute_concept_score`
(metric.py, lines 161-172, non-histogram path):
`round(np.sum(np.multiply(distance, risk)) / 2, 4)` where `distance` is the
(already rounded) matrix returned by `get_distance` and `risk` the matrix of
`get_risk`. -/
def compute_concept_score (dist : List (List ℚ) → List (List ℚ) → ℚ)
    (n : ℕ) (ordinal : Bool) (input : List (List (List ℚ))) : ℚ :=
  round4 ((∑ i ∈ Finset.range n, ∑ j ∈ Finset.range n,
    get_distance dist input i j * get_risk n ordinal i j) / 2)

/-- Follows the spec's words (for comparison with `compute_concept_score`):
the same aggregation computed from the full-precision, unrounded pairwise
distances ("internal computation at full precision"). -/
def compute_concept_score_fullprec (dist : List (List ℚ) → List (List ℚ) → ℚ)
    (n : ℕ) (ordinal : Bool) (input : List (List (List ℚ))) : ℚ :=
  round4 ((∑ i ∈ Finset.range n, ∑ j ∈ Finset.range n,
    get_distance_raw dist input i j * get_risk n ordinal i j) / 2)

/-- The code's aggregate form over arbitrary distance and risk matrices:
full elementwise-product sum, divided by two, rounded to 4 decimals
(metric.py, lines 167 and 172). -/
def aggregate_score (D R : ℕ → ℕ → ℚ) (n : ℕ) : ℚ :=
  round4 ((∑ i ∈ Finset.range n, ∑ j ∈ Finset.range n, D i j * R i j) / 2)

/-- Follows the spec's words: the upper-triangle formula
`sum_{i<j} distance[i][j] * risk[i][j]`, rounded to 4 decimal places. -/
def upper_triangle_score (D R : ℕ → ℕ → ℚ) (n : ℕ) : ℚ :=
  round4 (∑ i ∈ Finset.range n, ∑ j ∈ Finset.range n,
    if i < j then D i j * R i j else 0)

/-- Modelled from the spec: the external `Distance` module
(`from distance import Distance` in metric.py is not among the repository
sources) with `metric='euclidean'`, specialised to single-entry matrices,
where the euclidean norm of the difference is the absolute difference of the
two entries. -/
def euclidean1 (x y : List (List ℚ)) : ℚ :=
  |(x.getD 0 []).getD 0 0 - (y.getD 0 []).getD 0 0|

/-- The column of values `x[:, d]` of a stacked matrix, as used by
`np.min(x, axis=0)` / `np.max(x, axis=0)` in metric.py lines 105-106
(rows are assumed rectangular; a missing entry defaults to `0`). -/
def col_vals (rows : List (List ℚ)) (d : ℕ) : List ℚ :=
  rows.map (fun r => r.getD d 0)

/-- Embedding of the bin-edge loop of `Metric.histogram_analysis`
(metric.py, lines 108-116) for one dimension `d`:
`ctr = math.ceil((maxm[d] - minm[d]) / step)` and edges
`minm[d] + j * step` for `j = 0 .. ctr`. -/
def bin_edges (mn : ℚ) (step : ℚ) (ctr : ℕ) : List ℚ :=
  (List.range (ctr + 1)).map (fun j : ℕ => mn + (j : ℚ) * step)

/-- Embedding of the bin computation of `Metric.histogram_analysis`
(metric.py, lines 97-116) for dimension `d`: the per-class matrices are first
vertically stacked (lines 99-104), the per-dimension minimum and maximum are
taken over that stacked matrix, and the edges follow the `while j <= ctr`
loop. -/
def histogram_bins (input : List (List (List ℚ))) (step : ℚ) (d : ℕ) : List ℚ :=
  let x := input.flatten
  let mn := list_min (col_vals x d)
  let mx := list_max (col_vals x d)
  bin_edges mn step (⌈(mx - mn) / step⌉.toNat)

/-- Embedding of the joint min-max normalization of
`Metric.histogram_analysis` (metric.py, lines 124-136): the global minimum
and maximum density value across all classes' histogram arrays are
accumulated, and when they differ every array is rescaled by
`(count[i] - minm) / (maxm - minm)`; when they coincide the arrays are
returned untouched.  Each multi-dimensional histogram array is represented
by the list of its entries (normalization is elementwise). -/
def normalize_histograms (count : List (List ℚ)) : List (List ℚ) :=
  let mn := list_min (count.map list_min)
  let mx := list_max (count.map list_max)
  if mx - mn = 0 then count
  else count.map (fun h => h.map (fun v => (v - mn) / (mx - mn)))

/-- Source `self.n_tumors = len(np.unique(config.tumor_labels))`
(metric.py, line 21). -/
def n_tumors (labels : List ℕ) : ℕ := labels.dedup.length

/-- Worker loop of `Metric.merge_concepts_per_tumor_type`.  `last` carries the
value of the python variable `output__`, which the source never resets
between iterations of the outer class loop: when a class has no rows, the
inner `for j in range(len(output_))` loop does not run, and the trailing
`output.append(output__)` appends the stale value of the previous class
(or raises `NameError` when there is no previous value, modelled as
`none`). -/
def merge_go (labels : List ℕ) (input : List (List (List ℚ))) :
    List ℕ → Option (List (List ℚ)) → Option (List (List (List ℚ)))
  | [], _ => some []
  | i :: rest, last =>
      let rows := (((labels.zip input).filter (fun p => p.1 == i)).map
        (fun p => p.2)).flatten
      let cur : Option (List (List ℚ)) := if rows = [] then last else some rows
      match cur with
      | none => none
      | some m => (merge_go labels input rest cur).map (fun tl => m :: tl)

/-- Embedding of `Metric.merge_concepts_per_tumor_type`
(metric.py, lines 31-46): for every class index `i` in
`range(self.n_tumors)` the per-graph row lists of the graphs with
`tumor_labels == i` are concatenated in index order and vertically stacked.
`input[g]` is graph `g`'s list of concept rows; `labels[g]` its class. -/
def merge_concepts_per_tumor_type (labels : List ℕ)
    (input : List (List (List ℚ))) : Option (List (List (List ℚ))) :=
  merge_go labels input (List.range (n_tumors labels)) none

/-- Modelled from the spec: `calculate_importance` (imported in explain.py
from `.importance`, a module not among the repository sources) runs the
explainer over every input graph independently and annotates each with its
importance scores.  The per-graph annotation step is the function
`annotate`. -/
def calculate_importance {G A : Type} (annotate : G → A) (graphs : List G) :
    List A := graphs.map annotate

/-- Modelled from the spec: `generate_interactives` (imported in explain.py
from `.plot_interactives`, not among the repository sources) renders exactly
the importance-annotated graphs it is given; its output is that set. -/
def generate_interactives {A : Type} (cell_graphs : List A) : List A :=
  cell_graphs

/-- Modelled from the spec: the evaluation set used by
`calculate_separability` (imported in explain.py from `.separability`, not
among the repository sources) — when `prune_misclassified` is set, graphs
whose predicted class differs from the ground-truth label are removed from
the evaluation set used for separability scoring. -/
def separability_evaluation_set {G : Type} (predict : G → ℕ)
    (graphs_and_labels : List (G × ℕ)) (prune : Bool) : List (G × ℕ) :=
  if prune then graphs_and_labels.filter (fun p => predict p.1 == p.2)
  else graphs_and_labels

/-- Embedding of `explain_cell_graphs` (hactnet/explain/explain.py,
lines 36-48).  The orchestration is taken from the source: importance is
computed first over all input graphs; then, when `out_directory`,
`feature_names` and `cell_graph_names` are all supplied, interactives are
generated from the full annotated set, while if only `feature_names` or
`cell_graph_names` is supplied a `ValueError` is raised; finally
separability is computed from the original graphs and labels with the
pruning flag.  The three optional parameters are modelled by the booleans
saying whether each is supplied; the result pairs the visualization output
(when produced) with the evaluation set. -/
def explain_cell_graphs {G A : Type} (annotate : G → A) (predict : G → ℕ)
    (graphs : List G) (labels : List ℕ) (prune : Bool)
    (feature_names cell_graph_names out_directory : Bool) :
    Except String (Option (List A) × List (G × ℕ)) :=
  let cell_graphs := calculate_importance annotate graphs
  if out_directory && feature_names && cell_graph_names then
    Except.ok (some (generate_interactives cell_graphs),
      separability_evaluation_set predict (graphs.zip labels) prune)
  else if feature_names || cell_graph_names then
    Except.error "feature_names, cell_graph_names, and out_directory must all be provided to create interactive plots."
  else
    Except.ok (none,
      separability_evaluation_set predict (graphs.zip labels) prune)

/-- Whether a call outcome is the configuration error. -/
def raises_config_error {A : Type} : Except String A → Bool
  | Except.error _ => true
  | Except.ok _ => false

/-- Embedding of the evaluation-split selection of `run` (cggnn/run.py,
lines 53-59).  The source walks the triple
`train_validation_test = (train, validation, test)` with a negative index
starting at `-1` (the test set), decrementing while the indexed set is
empty, and raises `RuntimeError('all sets created are empty')` once the
index passes `-3` (the train set): it selects the first non-empty set among
test, validation, train, in that order. -/
def select_evaluation_set {G : Type} (train validation test : List G) :
    Except String (List G) :=
  if test.isEmpty then
    if validation.isEmpty then
      if train.isEmpty then Except.error "all sets created are empty"
      else Except.ok train
    else Except.ok validation
  else Except.ok test

/-- Whether the three visualization parameters of `explain_cell_graphs` are
supplied in part only: at least one of them, but not all three. -/
def some_but_not_all (f n o : Bool) : Bool :=
  (f || n || o) && !(f && n && o)

theorem round_half_even_intCast (k : ℤ) : round_half_even (k : ℚ) = k := by
  unfold round_half_even
  simp

theorem round_half_even_nonneg {q : ℚ} (h : 0 ≤ q) : 0 ≤ round_half_even q := by
  unfold round_half_even
  have hf : (0 : ℤ) ≤ ⌊q⌋ := Int.floor_nonneg.mpr h
  dsimp only
  split
  · exact hf
  · split
    · omega
    · split
      · exact hf
      · omega

theorem round4_nonneg {q : ℚ} (h : 0 ≤ q) : 0 ≤ round4 q := by
  unfold round4
  have h1 : (0 : ℚ) ≤ q * 10000 := by positivity
  have h2 : (0 : ℤ) ≤ round_half_even (q * 10000) := round_half_even_nonneg h1
  have h3 : (0 : ℚ) ≤ (round_half_even (q * 10000) : ℚ) := by exact_mod_cast h2
  positivity

theorem round4_idem (q : ℚ) : round4 (round4 q) = round4 q := by
  unfold round4
  have h : (round_half_even (q * 10000) : ℚ) / 10000 * 10000
      = (round_half_even (q * 10000) : ℚ) := by ring
  rw [h, round_half_even_intCast]

theorem round4_zero : round4 0 = 0 := by
  unfold round4 round_half_even
  norm_num

theorem foldl_min_le_init (xs : List ℚ) (a : ℚ) : xs.foldl min a ≤ a := by
  induction xs generalizing a with
  | nil => simp
  | cons x xs ih =>
      calc (x :: xs).foldl min a = xs.foldl min (min a x) := rfl
      _ ≤ min a x := ih _
      _ ≤ a := min_le_left _ _

theorem foldl_min_le_mem {xs : List ℚ} {v : ℚ} (hv : v ∈ xs) (a : ℚ) :
    xs.foldl min a ≤ v := by
  induction xs generalizing a with
  | nil => cases hv
  | cons x xs ih =>
      rcases List.mem_cons.mp hv with h | h
      · subst h
        calc (v :: xs).foldl min a = xs.foldl min (min a v) := rfl
        _ ≤ min a v := foldl_min_le_init _ _
        _ ≤ v := min_le_right _ _
      · exact ih h _

theorem foldl_min_mem (xs : List ℚ) (a : ℚ) :
    xs.foldl min a = a ∨ xs.foldl min a ∈ xs := by
  induction xs generalizing a with
  | nil => left; rfl
  | cons x xs ih =>
      rcases ih (min a x) with h | h
      · rcases min_cases a x with ⟨hm, _⟩ | ⟨hm, _⟩
        · left
          calc (x :: xs).foldl min a = xs.foldl min (min a x) := rfl
          _ = min a x := h
          _ = a := hm
        · right
          have : (x :: xs).foldl min a = x := by
            calc (x :: xs).foldl min a = xs.foldl min (min a x) := rfl
            _ = min a x := h
            _ = x := hm
          rw [this]; exact List.mem_cons_self _ _
      · right
        exact List.mem_cons_of_mem _ h

theorem list_min_le {xs : List ℚ} {v : ℚ} (hv : v ∈ xs) : list_min xs ≤ v := by
  cases xs with
  | nil => cases hv
  | cons x xs =>
      rcases List.mem_cons.mp hv with h | h
      · subst h; exact foldl_min_le_init _ _
      · exact foldl_min_le_mem h _

theorem list_min_mem {xs : List ℚ} (h : xs ≠ []) : list_min xs ∈ xs := by
  cases xs with
  | nil => exact absurd rfl h
  | cons x xs =>
      rcases foldl_min_mem xs x with h' | h'
      · rw [list_min, h']; exact List.mem_cons_self _ _
      · exact List.mem_cons_of_mem _ h'

theorem init_le_foldl_max (xs : List ℚ) (a : ℚ) : a ≤ xs.foldl max a := by
  induction xs generalizing a with
  | nil => simp
  | cons x xs ih =>
      calc a ≤ max a x := le_max_left _ _
      _ ≤ xs.foldl max (max a x) := ih _
      _ = (x :: xs).foldl max a := rfl

theorem mem_le_foldl_max {xs : List ℚ} {v : ℚ} (hv : v ∈ xs) (a : ℚ) :
    v ≤ xs.foldl max a := by
  induction xs generalizing a with
  | nil => cases hv
  | cons x xs ih =>
      rcases List.mem_cons.mp hv with h | h
      · subst h
        calc v ≤ max a v := le_max_right _ _
        _ ≤ xs.foldl max (max a v) := init_le_foldl_max _ _
        _ = (v :: xs).foldl max a := rfl
      · exact ih h _

theorem foldl_max_mem (xs : List ℚ) (a : ℚ) :
    xs.foldl max a = a ∨ xs.foldl max a ∈ xs := by
  induction xs generalizing a with
  | nil => left; rfl
  | cons x xs ih =>
      rcases ih (max a x) with h | h
      · rcases max_cases a x with ⟨hm, _⟩ | ⟨hm, _⟩
        · left
          calc (x :: xs).foldl max a = xs.foldl max (max a x) := rfl
          _ = max a x := h
          _ = a := hm
        · right
          have : (x :: xs).foldl max a = x := by
            calc (x :: xs).foldl max a = xs.foldl max (max a x) := rfl
            _ = max a x := h
            _ = x := hm
          rw [this]; exact List.mem_cons_self _ _
      · right
        exact List.mem_cons_of_mem _ h

theorem le_list_max {xs : List ℚ} {v : ℚ} (hv : v ∈ xs) : v ≤ list_max xs := by
  cases xs with
  | nil => cases hv
  | cons x xs =>
      rcases List.mem_cons.mp hv with h | h
      · subst h; exact init_le_foldl_max _ _
      · exact mem_le_foldl_max h _

theorem list_max_mem {xs : List ℚ} (h : xs ≠ []) : list_max xs ∈ xs := by
  cases xs with
  | nil => exact absurd rfl h
  | cons x xs =>
      rcases foldl_max_mem xs x with h' | h'
      · rw [list_max, h']; exact List.mem_cons_self _ _
      · exact List.mem_cons_of_mem _ h'

/-- C2 counterexample: the claim asserts a zero diagonal in both modes, but in
non-ordinal (uniform) mode `get_risk` leaves the matrix as `np.ones`, so the
diagonal entry `risk[0][0]` of a 2-class risk matrix is `1`, not `0`. -/
theorem C2_counterexample : get_risk 2 false 0 0 = 1 ∧ ¬ get_risk 2 false 0 0 = 0 := by
  refine ⟨rfl, ?_⟩
  intro h
  rw [show get_risk 2 false 0 0 = 1 from rfl] at h
  exact one_ne_zero h

/-- C2 (amended): `get_risk` returns `risk[i][j] = |i - j|` for all `i`, `j`
when ordinal mode is on (hence diagonal `0`), and `risk[i][j] = 1` for ALL
`i`, `j` — the diagonal included — when ordinal mode is off; the result is
determined by the class count and the mode. -/
theorem C2_get_risk (n : ℕ) (ordinal : Bool) (i j : ℕ) :
    (ordinal = true → get_risk n ordinal i j = |(i : ℚ) - (j : ℚ)|) ∧
    (ordinal = true → get_risk n ordinal i i = 0) ∧
    (ordinal = false → get_risk n ordinal i j = 1) := by
  refine ⟨?_, ?_, ?_⟩ <;> intro h <;> subst h <;> simp [get_risk]

/-- C2 witness: the amended theorem evaluated at `n = 3`. -/
theorem C2_witness :
    get_risk 3 true 1 2 = 1 ∧ get_risk 3 true 2 2 = 0 ∧ get_risk 3 false 0 0 = 1 := by
  refine ⟨?_, (C2_get_risk 3 true 2 2).2.1 rfl, (C2_get_risk 3 false 0 0).2.2 rfl⟩
  rw [(C2_get_risk 3 true 1 2).1 rfl]
  norm_num

/-- C5 (code bug): when a class in `range(n_tumors)` has zero eligible rows,
`merge_concepts_per_tumor_type` does not drop the class from its output.
The python variable `output__` is never reset between classes, so the stale
stack of the previous class is appended in its place — here with
`tumor_labels = [0, 2]` (`n_tumors = 2`, class `1` has no graphs) the output
keeps length 2 and position 1 duplicates class 0's pooled rows `[[1]]`
instead of holding class 2's rows `[[2]]` — and when the very first class is
empty (`tumor_labels = [1]`) the call raises `NameError` (modelled `none`)
instead of returning a reduced mapping. -/
theorem C5_merge_stale_duplicate :
    merge_concepts_per_tumor_type [0, 2] [[[1]], [[2]]] = some [[[1]], [[1]]] ∧
    merge_concepts_per_tumor_type [1] [[[5]]] = none := by
  exact ⟨rfl, rfl⟩

/-- C7 counterexample: the claim says the configuration error is raised if and
only if the visualization parameters are partially supplied; but supplying
only `out_directory` (some but not all of the three parameters) raises no
error — `explain_cell_graphs` returns normally. -/
theorem C7_counterexample :
    ¬ ((raises_config_error (explain_cell_graphs (fun x : Unit => x)
          (fun _ : Unit => 0) [] [] false false false true) = true) ↔
        (some_but_not_all false false true = true)) := by
  intro h
  exact Bool.false_ne_true (h.mpr rfl)

/-- C7 (amended): `explain_cell_graphs` raises the configuration error if and
only if `feature_names` or `cell_graph_names` is supplied while not all three
of `feature_names`, `cell_graph_names`, `out_directory` are supplied;
supplying only `out_directory` (or none of the three) raises nothing, and
supplying all three raises nothing. -/
theorem C7_config_error_iff {G A : Type} (f n o : Bool) (annotate : G → A)
    (predict : G → ℕ) (graphs : List G) (labels : List ℕ) (prune : Bool) :
    raises_config_error
        (explain_cell_graphs annotate predict graphs labels prune f n o)
      = ((f || n) && !(f && n && o)) := by
  cases f <;> cases n <;> cases o <;>
    simp [explain_cell_graphs, raises_config_error]

/-- C10: `run` selects as its explanation evaluation split the first
non-empty set among test, validation, train, in that priority order, and
raises `RuntimeError('all sets created are empty')` when all three splits are
empty. -/
theorem C10_select_evaluation_set {G : Type} (train validation test : List G) :
    (test ≠ [] → select_evaluation_set train validation test = Except.ok test) ∧
    (test = [] → validation ≠ [] →
      select_evaluation_set train validation test = Except.ok validation) ∧
    (test = [] → validation = [] → train ≠ [] →
      select_evaluation_set train validation test = Except.ok train) ∧
    (test = [] → validation = [] → train = [] →
      select_evaluation_set train validation test
        = Except.error "all sets created are empty") := by
  refine ⟨?_, ?_, ?_, ?_⟩ <;> intros <;>
    simp_all [select_evaluation_set, List.isEmpty_iff]

/-- C10 witness: the selection evaluated at concrete splits — a non-empty
test split wins; with test and validation empty the train split is chosen;
all-empty splits raise the error. -/
theorem C10_witness :
    select_evaluation_set ([] : List ℕ) [1] [2] = Except.ok [2] ∧
    select_evaluation_set ([3] : List ℕ) [] [] = Except.ok [3] ∧
    select_evaluation_set ([] : List ℕ) [] []
      = Except.error "all sets created are empty" :=
  ⟨(C10_select_evaluation_set [] [1] [2]).1 (by simp),
   (C10_select_evaluation_set [3] [] []).2.2.1 rfl rfl (by simp),
   (C10_select_evaluation_set [] [] []).2.2.2 rfl rfl rfl⟩

/-- C8: for every pooled-by-class input and every (injected) distance
function, the matrix returned by `get_distance` is symmetric
(`M[i][j] = M[j][i]`), has zero diagonal (`M[i][i] = 0`), and — whenever the
distance function is non-negative, as the spec's euclidean metric is — has
all entries non-negative. -/
theorem C8_distance_matrix (dist : List (List ℚ) → List (List ℚ) → ℚ)
    (input : List (List (List ℚ))) (hd : ∀ x y, 0 ≤ dist x y) :
    (∀ i j, get_distance dist input i j = get_distance dist input j i) ∧
    (∀ i, get_distance dist input i i = 0) ∧
    (∀ i j, 0 ≤ get_distance dist input i j) := by
  refine ⟨?_, ?_, ?_⟩
  · intro i j
    unfold get_distance
    by_cases hc : i < input.length ∧ j < input.length ∧ i ≠ j
    · have hc' : j < input.length ∧ i < input.length ∧ j ≠ i :=
        ⟨hc.2.1, hc.1, hc.2.2.symm⟩
      rw [if_pos hc, if_pos hc']
      rcases lt_trichotomy i j with h | h | h
      · rw [if_pos h, if_neg (not_lt.mpr h.le)]
      · exact absurd h hc.2.2
      · rw [if_neg (not_lt.mpr h.le), if_pos h]
    · have hc' : ¬(j < input.length ∧ i < input.length ∧ j ≠ i) := by
        intro h'
        exact hc ⟨h'.2.1, h'.1, h'.2.2.symm⟩
      rw [if_neg hc, if_neg hc']
  · intro i
    unfold get_distance
    rw [if_neg]
    intro h
    exact h.2.2 rfl
  · intro i j
    unfold get_distance
    by_cases hc : i < input.length ∧ j < input.length ∧ i ≠ j
    · rw [if_pos hc]
      by_cases h : i < j
      · rw [if_pos h]; exact round4_nonneg (hd _ _)
      · rw [if_neg h]; exact round4_nonneg (hd _ _)
    · rw [if_neg hc]

/-- C8 witness: the properties evaluated on a concrete two-class pooled input
with the euclidean distance on single-entry matrices. -/
theorem C8_witness :
    get_distance euclidean1 [[[0]], [[3]]] 0 1
      = get_distance euclidean1 [[[0]], [[3]]] 1 0 ∧
    get_distance euclidean1 [[[0]], [[3]]] 1 1 = 0 ∧
    0 ≤ get_distance euclidean1 [[[0]], [[3]]] 0 1 :=
  ⟨(C8_distance_matrix euclidean1 [[[0]], [[3]]] (fun _ _ => abs_nonneg _)).1 0 1,
   (C8_distance_matrix euclidean1 [[[0]], [[3]]] (fun _ _ => abs_nonneg _)).2.1 1,
   (C8_distance_matrix euclidean1 [[[0]], [[3]]] (fun _ _ => abs_nonneg _)).2.2 0 1⟩

/-- C6 counterexample: the aggregate separability score of
`compute_concept_score` is computed from the distances already rounded by
`get_distance` (`np.round(M, 4)` happens before the return), not at full
precision.  With three classes holding single values `0`, `0.0001` and
`0.00026`, ordinal risk, and the euclidean distance, the code's score is
`0.0009` while the score computed from full-precision distances is `0.0008`. -/
theorem C6_counterexample :
    compute_concept_score euclidean1 3 true [[[0]], [[1/10000]], [[26/100000]]]
      ≠ compute_concept_score_fullprec euclidean1 3 true
        [[[0]], [[1/10000]], [[26/100000]]] := by
  have r1 : round4 (1/10000) = 1/10000 := by unfold round4 round_half_even; norm_num
  have r2 : round4 (13/50000) = 3/10000 := by unfold round4 round_half_even; norm_num
  have r3 : round4 (1/6250) = 1/5000 := by unfold round4 round_half_even; norm_num
  have r4 : round4 (9/10000) = 9/10000 := by unfold round4 round_half_even; norm_num
  have r5 : round4 (39/50000) = 1/1250 := by unfold round4 round_half_even; norm_num
  have a1 : |(1:ℚ)/10000| = 1/10000 := by norm_num
  have a2 : |(13:ℚ)/50000| = 13/50000 := by norm_num
  have a3 : |(1:ℚ)/6250| = 1/6250 := by norm_num
  norm_num [compute_concept_score, compute_concept_score_fullprec,
    Finset.sum_range_succ, get_distance, get_distance_raw, get_risk, euclidean1,
    a1, a2, a3, r1, r2, r3, r4, r5]

/-- C6 (amended): all pairwise distances returned by `get_distance` are
non-negative (for a non-negative distance function); they are rounded to 4
decimal places inside `get_distance` — every returned entry is `round4` of
the raw distance — and the aggregate score of `compute_concept_score` is
computed from these rounded distances, so pre-rounding the distance function
itself leaves the score unchanged. -/
theorem C6_rounded_distances (dist : List (List ℚ) → List (List ℚ) → ℚ)
    (input : List (List (List ℚ))) (n : ℕ) (ordinal : Bool)
    (hd : ∀ x y, 0 ≤ dist x y) :
    (∀ i j, 0 ≤ get_distance dist input i j) ∧
    (∀ i j, get_distance dist input i j
      = round4 (get_distance_raw dist input i j)) ∧
    (compute_concept_score dist n ordinal input
      = compute_concept_score (fun x y => round4 (dist x y)) n ordinal input) := by
  have hrnd : ∀ i j, get_distance dist input i j
      = round4 (get_distance_raw dist input i j) := by
    intro i j
    unfold get_distance get_distance_raw
    by_cases hc : i < input.length ∧ j < input.length ∧ i ≠ j
    · rw [if_pos hc, if_pos hc]
      by_cases h : i < j
      · rw [if_pos h, if_pos h]
      · rw [if_neg h, if_neg h]
    · rw [if_neg hc, if_neg hc, round4_zero]
  refine ⟨?_, hrnd, ?_⟩
  · intro i j
    rw [hrnd i j]
    have hraw : 0 ≤ get_distance_raw dist input i j := by
      unfold get_distance_raw
      by_cases hc : i < input.length ∧ j < input.length ∧ i ≠ j
      · rw [if_pos hc]
        by_cases h : i < j
        · rw [if_pos h]; exact hd _ _
        · rw [if_neg h]; exact hd _ _
      · rw [if_neg hc]
    exact round4_nonneg hraw
  · unfold compute_concept_score
    have key : ∀ i j, get_distance dist input i j
        = get_distance (fun x y => round4 (dist x y)) input i j := by
      intro i j
      unfold get_distance
      by_cases hc : i < input.length ∧ j < input.length ∧ i ≠ j
      · rw [if_pos hc, if_pos hc]
        by_cases h : i < j
        · rw [if_pos h, if_pos h, round4_idem]
        · rw [if_neg h, if_neg h, round4_idem]
      · rw [if_neg hc, if_neg hc]
    congr 2
    exact Finset.sum_congr rfl (fun i _ =>
      Finset.sum_congr rfl (fun j _ => by rw [key i j]))

/-- C6 witness: the amended theorem evaluated at a concrete two-class input
with the euclidean distance on single-entry matrices. -/
theorem C6_witness :
    0 ≤ get_distance euclidean1 [[[0]], [[2]]] 0 1 ∧
    get_distance euclidean1 [[[0]], [[2]]] 0 1
      = round4 (get_distance_raw euclidean1 [[[0]], [[2]]] 0 1) ∧
    compute_concept_score euclidean1 2 false [[[0]], [[2]]]
      = compute_concept_score (fun x y => round4 (euclidean1 x y)) 2 false
        [[[0]], [[2]]] :=
  ⟨(C6_rounded_distances euclidean1 [[[0]], [[2]]] 2 false
      (fun _ _ => abs_nonneg _)).1 0 1,
   (C6_rounded_distances euclidean1 [[[0]], [[2]]] 2 false
      (fun _ _ => abs_nonneg _)).2.1 0 1,
   (C6_rounded_distances euclidean1 [[[0]], [[2]]] 2 false
      (fun _ _ => abs_nonneg _)).2.2⟩

theorem sum_symm_zero_diag (n : ℕ) (f : ℕ → ℕ → ℚ)
    (hsym : ∀ i j, f i j = f j i) (hdiag : ∀ i, f i i = 0) :
    ∑ i ∈ Finset.range n, ∑ j ∈ Finset.range n, f i j
      = 2 * ∑ i ∈ Finset.range n, ∑ j ∈ Finset.range n,
          (if i < j then f i j else 0) := by
  have hsplit : ∀ i j, f i j
      = (if i < j then f i j else 0) + (if j < i then f i j else 0) := by
    intro i j
    rcases lt_trichotomy i j with h | h | h
    · rw [if_pos h, if_neg (by omega), add_zero]
    · subst h
      simp [hdiag]
    · rw [if_neg (by omega), if_pos h, zero_add]
  have hlower : (∑ i ∈ Finset.range n, ∑ j ∈ Finset.range n,
        (if j < i then f i j else 0))
      = ∑ i ∈ Finset.range n, ∑ j ∈ Finset.range n,
        (if i < j then f i j else 0) := by
    rw [Finset.sum_comm]
    exact Finset.sum_congr rfl (fun i _ =>
      Finset.sum_congr rfl (fun j _ => by rw [hsym]))
  calc ∑ i ∈ Finset.range n, ∑ j ∈ Finset.range n, f i j
      = ∑ i ∈ Finset.range n, ∑ j ∈ Finset.range n,
          ((if i < j then f i j else 0) + (if j < i then f i j else 0)) :=
        Finset.sum_congr rfl (fun i _ =>
          Finset.sum_congr rfl (fun j _ => hsplit i j))
    _ = (∑ i ∈ Finset.range n, ∑ j ∈ Finset.range n,
          (if i < j then f i j else 0))
        + ∑ i ∈ Finset.range n, ∑ j ∈ Finset.range n,
          (if j < i then f i j else 0) := by
        rw [← Finset.sum_add_distrib]
        exact Finset.sum_congr rfl (fun i _ => Finset.sum_add_distrib)
    _ = 2 * ∑ i ∈ Finset.range n, ∑ j ∈ Finset.range n,
          (if i < j then f i j else 0) := by
        rw [hlower]; ring

/-- C1: for every symmetric distance matrix with zero diagonal and every
(symmetric, as the spec's data model defines risk matrices) risk matrix, the
aggregate score computed as the full elementwise-product sum divided by 2 and
rounded to 4 decimal places equals the upper-triangle formula
`sum_{i<j} distance[i][j] * risk[i][j]` rounded to 4 decimal places — the
two agree exactly before rounding, hence also after. -/
theorem C1_full_sum_eq_upper_triangle (n : ℕ) (D R : ℕ → ℕ → ℚ)
    (hDsym : ∀ i j, D i j = D j i) (hDdiag : ∀ i, D i i = 0)
    (hRsym : ∀ i j, R i j = R j i) :
    aggregate_score D R n = upper_triangle_score D R n := by
  unfold aggregate_score upper_triangle_score
  have h := sum_symm_zero_diag n (fun i j => D i j * R i j)
    (fun i j => show D i j * R i j = D j i * R j i by rw [hDsym i j, hRsym i j])
    (fun i => show D i i * R i i = 0 by rw [hDdiag, zero_mul])
  rw [h]
  congr 1
  ring

/-- C1 witness: the equality evaluated at three classes, the symmetric
zero-diagonal distance matrix `|i - j|`, and the uniform all-ones risk
matrix. -/
theorem C1_witness :
    aggregate_score (fun i j => |(i : ℚ) - (j : ℚ)|) (fun _ _ => 1) 3
      = upper_triangle_score (fun i j => |(i : ℚ) - (j : ℚ)|) (fun _ _ => 1) 3 :=
  C1_full_sum_eq_upper_triangle 3 _ _
    (fun i j => abs_sub_comm _ _) (fun i => by simp) (fun _ _ => rfl)

theorem glob_min_le {count : List (List ℚ)} {h : List ℚ} {v : ℚ}
    (hh : h ∈ count) (hv : v ∈ h) : list_min (count.map list_min) ≤ v :=
  le_trans (list_min_le (List.mem_map_of_mem list_min hh)) (list_min_le hv)

theorem le_glob_max {count : List (List ℚ)} {h : List ℚ} {v : ℚ}
    (hh : h ∈ count) (hv : v ∈ h) : v ≤ list_max (count.map list_max) :=
  le_trans (le_list_max hv) (le_list_max (List.mem_map_of_mem list_max hh))

theorem glob_min_attained {count : List (List ℚ)} (hne : count ≠ [])
    (hall : ∀ h ∈ count, h ≠ []) :
    ∃ h ∈ count, ∃ v ∈ h, v = list_min (count.map list_min) := by
  have hmapne : count.map list_min ≠ [] := by
    simpa using hne
  have hmem := list_min_mem hmapne
  rcases List.mem_map.mp hmem with ⟨h, hh, heq⟩
  exact ⟨h, hh, list_min h, list_min_mem (hall h hh), heq⟩

theorem glob_max_attained {count : List (List ℚ)} (hne : count ≠ [])
    (hall : ∀ h ∈ count, h ≠ []) :
    ∃ h ∈ count, ∃ v ∈ h, v = list_max (count.map list_max) := by
  have hmapne : count.map list_max ≠ [] := by
    simpa using hne
  have hmem := list_max_mem hmapne
  rcases List.mem_map.mp hmem with ⟨h, hh, heq⟩
  exact ⟨h, hh, list_max h, list_max_mem (hall h hh), heq⟩

/-- C4: `normalize_histograms` min-max normalizes all classes' histogram
arrays jointly, with the single global minimum and maximum density value
across all classes; it skips normalization when that global maximum equals
the global minimum; and in the non-degenerate case every output value lies in
`[0, 1]` and the values `0` and `1` are each attained somewhere across the
classes' arrays.  (Hypotheses: at least one class, no empty histogram array —
`np.min` rejects empty input.) -/
theorem C4_joint_normalization (count : List (List ℚ)) (hne : count ≠ [])
    (hall : ∀ h ∈ count, h ≠ []) :
    (list_max (count.map list_max) = list_min (count.map list_min) →
      normalize_histograms count = count) ∧
    (list_max (count.map list_max) ≠ list_min (count.map list_min) →
      (∀ h ∈ normalize_histograms count, ∀ v ∈ h, 0 ≤ v ∧ v ≤ 1) ∧
      (∃ h ∈ normalize_histograms count, ∃ v ∈ h, v = 0) ∧
      (∃ h ∈ normalize_histograms count, ∃ v ∈ h, v = 1)) := by
  constructor
  · intro heq
    show (if list_max (count.map list_max) - list_min (count.map list_min) = 0
        then count
        else count.map (fun h => h.map (fun v =>
          (v - list_min (count.map list_min))
            / (list_max (count.map list_max) - list_min (count.map list_min)))))
      = count
    rw [if_pos (sub_eq_zero_of_eq heq)]
  · intro hneq
    have hd : list_max (count.map list_max) - list_min (count.map list_min) ≠ 0 :=
      sub_ne_zero_of_ne hneq
    have heval : normalize_histograms count
        = count.map (fun h => h.map (fun v =>
          (v - list_min (count.map list_min))
            / (list_max (count.map list_max) - list_min (count.map list_min)))) := by
      show (if list_max (count.map list_max) - list_min (count.map list_min) = 0
          then count
          else count.map (fun h => h.map (fun v =>
            (v - list_min (count.map list_min))
              / (list_max (count.map list_max) - list_min (count.map list_min)))))
        = _
      rw [if_neg hd]
    have hle : list_min (count.map list_min) ≤ list_max (count.map list_max) := by
      rcases glob_min_attained hne hall with ⟨h, hh, v, hv, hveq⟩
      rw [← hveq]
      exact le_glob_max hh hv
    have hlt : list_min (count.map list_min) < list_max (count.map list_max) :=
      lt_of_le_of_ne hle (fun h => hneq h.symm)
    have hpos : 0 < list_max (count.map list_max) - list_min (count.map list_min) :=
      sub_pos.mpr hlt
    refine ⟨?_, ?_, ?_⟩
    · intro h' hh' v' hv'
      rw [heval] at hh'
      rcases List.mem_map.mp hh' with ⟨h, hh, rfl⟩
      rcases List.mem_map.mp hv' with ⟨v, hv, rfl⟩
      constructor
      · exact div_nonneg (sub_nonneg.mpr (glob_min_le hh hv)) hpos.le
      · exact (div_le_one hpos).mpr (sub_le_sub_right (le_glob_max hh hv) _)
    · rcases glob_min_attained hne hall with ⟨h, hh, v, hv, hveq⟩
      refine ⟨_, by rw [heval]; exact List.mem_map_of_mem _ hh,
        _, List.mem_map_of_mem _ hv, ?_⟩
      rw [hveq, sub_self, zero_div]
    · rcases glob_max_attained hne hall with ⟨h, hh, v, hv, hveq⟩
      refine ⟨_, by rw [heval]; exact List.mem_map_of_mem _ hh,
        _, List.mem_map_of_mem _ hv, ?_⟩
      rw [hveq, div_self hd]

/-- C4 witness: the non-degenerate conclusions evaluated at two concrete
histogram arrays with global density range `[0, 2]`. -/
theorem C4_witness :
    (∀ h ∈ normalize_histograms [[0, 2], [1]], ∀ v ∈ h, 0 ≤ v ∧ v ≤ 1) ∧
    (∃ h ∈ normalize_histograms [[0, 2], [1]], ∃ v ∈ h, v = 0) ∧
    (∃ h ∈ normalize_histograms [[0, 2], [1]], ∃ v ∈ h, v = 1) :=
  (C4_joint_normalization [[0, 2], [1]] (by simp) (by simp)).2
    (by norm_num [list_max, list_min, List.foldl])

/-- C3: in histogram mode, the per-dimension bin edges of
`histogram_analysis` are computed from the global minimum and maximum across
all classes' pooled rows — `mn` is attained on the stacked rows and bounds
every row of every class from below, `mx` dually from above — and the edge
list is exactly `mn + j * bin_width` for `j = 0 .. ceil((mx - mn) / bin_width)`,
so it starts at `mn` and ends at `mn + ceil((mx - mn) / bin_width) * bin_width`
(the ceiling is non-negative, so its `toNat` coincides with it). -/
theorem C3_histogram_bins_global (input : List (List (List ℚ))) (step : ℚ)
    (d : ℕ) (hne : input.flatten ≠ []) (hstep : 0 < step) :
    ∃ mn mx : ℚ,
      (∃ r ∈ input.flatten, r.getD d 0 = mn) ∧
      (∀ cls ∈ input, ∀ r ∈ cls, mn ≤ r.getD d 0) ∧
      (∃ r ∈ input.flatten, r.getD d 0 = mx) ∧
      (∀ cls ∈ input, ∀ r ∈ cls, r.getD d 0 ≤ mx) ∧
      histogram_bins input step d
        = (List.range (⌈(mx - mn) / step⌉.toNat + 1)).map
            (fun j : ℕ => mn + (j : ℚ) * step) ∧
      (histogram_bins input step d).head? = some mn ∧
      (histogram_bins input step d).getLast?
        = some (mn + (⌈(mx - mn) / step⌉.toNat : ℚ) * step) ∧
      ((⌈(mx - mn) / step⌉.toNat : ℤ) = ⌈(mx - mn) / step⌉) := by
  have hvne : col_vals input.flatten d ≠ [] := by
    unfold col_vals
    simpa using hne
  have hexp : histogram_bins input step d
      = (List.range
          (⌈(list_max (col_vals input.flatten d)
              - list_min (col_vals input.flatten d)) / step⌉.toNat + 1)).map
          (fun j : ℕ => list_min (col_vals input.flatten d) + (j : ℚ) * step) := rfl
  refine ⟨list_min (col_vals input.flatten d),
    list_max (col_vals input.flatten d), ?_, ?_, ?_, ?_, hexp, ?_, ?_, ?_⟩
  · rcases List.mem_map.mp (list_min_mem hvne) with ⟨r, hr, hreq⟩
    exact ⟨r, hr, hreq⟩
  · intro cls hcls r hr
    exact list_min_le (List.mem_map_of_mem _ (List.mem_flatten.mpr ⟨cls, hcls, hr⟩))
  · rcases List.mem_map.mp (list_max_mem hvne) with ⟨r, hr, hreq⟩
    exact ⟨r, hr, hreq⟩
  · intro cls hcls r hr
    exact le_list_max (List.mem_map_of_mem _ (List.mem_flatten.mpr ⟨cls, hcls, hr⟩))
  · rw [hexp, List.range_succ_eq_map]
    simp
  · rw [hexp, List.range_succ, List.map_append]
    simp
  · refine Int.toNat_of_nonneg (Int.ceil_nonneg (div_nonneg ?_ hstep.le))
    have hle : list_min (col_vals input.flatten d)
        ≤ list_max (col_vals input.flatten d) := by
      rcases List.mem_map.mp (list_min_mem hvne) with ⟨r, hr, hreq⟩
      calc list_min (col_vals input.flatten d) = r.getD d 0 := hreq.symm
      _ ≤ list_max (col_vals input.flatten d) :=
        le_list_max (List.mem_map_of_mem _ hr)
    exact sub_nonneg.mpr hle

/-- C3 witness: the bin edges evaluated at two classes of one-dimensional
rows `[0], [1]` and `[2]` with bin width `1/2`: global range `[0, 2]`,
ceiling `4`, edges `0, 1/2, 1, 3/2, 2`. -/
theorem C3_witness :
    ∃ mn mx : ℚ,
      (∃ r ∈ ([[[0], [1]], [[2]]] : List (List (List ℚ))).flatten,
        r.getD 0 0 = mn) ∧
      (∀ cls ∈ ([[[0], [1]], [[2]]] : List (List (List ℚ))),
        ∀ r ∈ cls, mn ≤ r.getD 0 0) ∧
      (∃ r ∈ ([[[0], [1]], [[2]]] : List (List (List ℚ))).flatten,
        r.getD 0 0 = mx) ∧
      (∀ cls ∈ ([[[0], [1]], [[2]]] : List (List (List ℚ))),
        ∀ r ∈ cls, r.getD 0 0 ≤ mx) ∧
      histogram_bins [[[0], [1]], [[2]]] (1/2) 0
        = (List.range (⌈(mx - mn) / (1/2)⌉.toNat + 1)).map
            (fun j : ℕ => mn + (j : ℚ) * (1/2)) ∧
      (histogram_bins [[[0], [1]], [[2]]] (1/2) 0).head? = some mn ∧
      (histogram_bins [[[0], [1]], [[2]]] (1/2) 0).getLast?
        = some (mn + (⌈(mx - mn) / (1/2)⌉.toNat : ℚ) * (1/2)) ∧
      ((⌈(mx - mn) / (1/2)⌉.toNat : ℤ) = ⌈(mx - mn) / (1/2)⌉) :=
  C3_histogram_bins_global [[[0], [1]], [[2]]] (1/2) 0 (by simp) (by norm_num)

/-- C9: in `explain_cell_graphs`, importance annotations are computed over all
input graphs before any misclassification pruning — the visualization output
equals the importance annotation of the full input graph list — so a
misclassified graph, pruned from the separability evaluation set, is still
present with its importance annotation in the visualization output. -/
theorem C9_pruned_graph_still_visualized {G A : Type} (annotate : G → A)
    (predict : G → ℕ) (graphs : List G) (labels : List ℕ) (g : G) (l : ℕ)
    (hg : g ∈ graphs) (hmis : predict g ≠ l) :
    ∃ viz evalSet,
      explain_cell_graphs annotate predict graphs labels true true true true
        = Except.ok (some viz, evalSet) ∧
      viz = calculate_importance annotate graphs ∧
      annotate g ∈ viz ∧
      (g, l) ∉ evalSet := by
  refine ⟨calculate_importance annotate graphs,
    separability_evaluation_set predict (graphs.zip labels) true,
    rfl, rfl, List.mem_map_of_mem annotate hg, ?_⟩
  intro hIn
  unfold separability_evaluation_set at hIn
  rw [if_pos rfl] at hIn
  have hpred := (List.mem_filter.mp hIn).2
  exact hmis (by simpa using hpred)

/-- C9 witness: a single graph `7` of true class `1` that the model predicts
as class `0` is pruned from the evaluation set but its annotation `107` is in
the visualization output. -/
theorem C9_witness :
    ∃ viz evalSet,
      explain_cell_graphs (fun g : ℕ => g + 100) (fun _ => 0) [7] [1]
          true true true true
        = Except.ok (some viz, evalSet) ∧
      viz = calculate_importance (fun g : ℕ => g + 100) [7] ∧
      (fun g : ℕ => g + 100) 7 ∈ viz ∧
      ((7 : ℕ), (1 : ℕ)) ∉ evalSet :=
  C9_pruned_graph_still_visualized (fun g : ℕ => g + 100) (fun _ => 0)
    [7] [1] 7 1 (by simp) (by simp)

end CgGnn
